import Mathlib

/-!
Shallow embedding of the rust_blockchain repository: hex codec
(src/utils/mod.rs), block header and mining (src/core/block_header.rs,
src/core/block.rs), chain management (src/core/blockchain.rs) and the
persistence manager (src/core/blockchain_manager.rs).

Bytes are `Nat` values below 256.  The unbounded mining loop is embedded
with explicit fuel: `none` means the loop was not observed to terminate
within the fuel, `some b` is the block the loop returned.  Wall-clock
timestamps are passed in explicitly.  SHA-256 is implemented concretely
(FIPS 180-4) so that every definition is executable.
-/

namespace RustChain

/-! ## SHA-256 (the `sha2` crate's `Sha256`, FIPS 180-4) -/

namespace Sha256

/-- Truncation to a 32-bit word. -/
def w32 (n : Nat) : Nat := n % 4294967296

/-- Rotate the 32-bit word `x` right by `n` positions. -/
def rotr (n x : Nat) : Nat := w32 ((x >>> n) ||| (x <<< (32 - n)))

def bsig0 (x : Nat) : Nat := rotr 2 x ^^^ rotr 13 x ^^^ rotr 22 x

def bsig1 (x : Nat) : Nat := rotr 6 x ^^^ rotr 11 x ^^^ rotr 25 x

def ssig0 (x : Nat) : Nat := rotr 7 x ^^^ rotr 18 x ^^^ (x >>> 3)

def ssig1 (x : Nat) : Nat := rotr 17 x ^^^ rotr 19 x ^^^ (x >>> 10)

def ch (x y z : Nat) : Nat := (x &&& y) ^^^ ((x ^^^ 4294967295) &&& z)

def maj (x y z : Nat) : Nat := (x &&& y) ^^^ (x &&& z) ^^^ (y &&& z)

/-- The 64 round constants of FIPS 180-4, written in decimal. -/
def K : List Nat :=
  [1116352408, 1899447441, 3049323471, 3921009573,
   961987163, 1508970993, 2453635748, 2870763221,
   3624381080, 310598401, 607225278, 1426881987,
   1925078388, 2162078206, 2614888103, 3248222580,
   3835390401, 4022224774, 264347078, 604807628,
   770255983, 1249150122, 1555081692, 1996064986,
   2554220882, 2821834349, 2952996808, 3210313671,
   3336571891, 3584528711, 113926993, 338241895,
   666307205, 773529912, 1294757372, 1396182291,
   1695183700, 1986661051, 2177026350, 2456956037,
   2730485921, 2820302411, 3259730800, 3345764771,
   3516065817, 3600352804, 4094571909, 275423344,
   430227734, 506948616, 659060556, 883997877,
   958139571, 1322822218, 1537002063, 1747873779,
   1955562222, 2024104815, 2227730452, 2361852424,
   2428436474, 2756734187, 3204031479, 3329325298]

/-- The eight initial hash words of FIPS 180-4, written in decimal. -/
def initH : List Nat :=
  [1779033703, 3144134277, 1013904242, 2773480762,
   1359893119, 2600822924, 528734635, 1541459225]

/-- Message-schedule extension, building the word list newest first:
position 0 holds w[i-1], position 1 holds w[i-2], and so on. -/
def extendRev : Nat → List Nat → List Nat
  | 0, rws => rws
  | n + 1, rws =>
      extendRev n
        (w32 (ssig1 (rws.getD 1 0) + rws.getD 6 0 +
              ssig0 (rws.getD 14 0) + rws.getD 15 0) :: rws)

/-- One compression round on the eight-word working state. -/
def step (st : List Nat) (k w : Nat) : List Nat :=
  match st with
  | [a, b, c, d, e, f, g, h] =>
      let t1 := w32 (h + bsig1 e + ch e f g + k + w)
      let t2 := w32 (bsig0 a + maj a b c)
      [w32 (t1 + t2), a, b, c, w32 (d + t1), e, f, g]
  | _ => st

/-- Compress one 16-word message block into the running hash state. -/
def compress (h0 : List Nat) (block16 : List Nat) : List Nat :=
  let ws := (extendRev 48 block16.reverse).reverse
  let fin := (K.zip ws).foldl (fun st kw => step st kw.1 kw.2) h0
  (h0.zip fin).map fun p => w32 (p.1 + p.2)

/-- FIPS 180-4 padding: append 0x80, zeros, and the 64-bit big-endian
bit length, reaching a multiple of 64 bytes. -/
def padBytes (msg : List Nat) : List Nat :=
  let len := msg.length
  let bitLen := len * 8
  let zeros := (119 - len % 64) % 64
  msg ++ 0x80 :: List.replicate zeros 0 ++
    [(bitLen >>> 56) % 256, (bitLen >>> 48) % 256, (bitLen >>> 40) % 256,
     (bitLen >>> 32) % 256, (bitLen >>> 24) % 256, (bitLen >>> 16) % 256,
     (bitLen >>> 8) % 256, bitLen % 256]

/-- Big-endian packing of bytes into 32-bit words. -/
def toWords : List Nat → List Nat
  | b0 :: b1 :: b2 :: b3 :: rest =>
      ((b0 <<< 24) ||| (b1 <<< 16) ||| (b2 <<< 8) ||| b3) :: toWords rest
  | _ => []

/-- Split a word list into 16-word blocks (fuelled by the list length). -/
def toBlocksGo : Nat → List Nat → List (List Nat)
  | 0, _ => []
  | _ + 1, [] => []
  | n + 1, ws => ws.take 16 :: toBlocksGo n (ws.drop 16)

/-- Big-endian unpacking of a 32-bit word into four bytes. -/
def wordToBytes (w : Nat) : List Nat :=
  [(w >>> 24) % 256, (w >>> 16) % 256, (w >>> 8) % 256, w % 256]

/-- SHA-256 of a byte sequence, returned as its 32 digest bytes. -/
def sha256 (msg : List Nat) : List Nat :=
  let ws := toWords (padBytes msg)
  let hs := (toBlocksGo ws.length ws).foldl compress initH
  hs.flatMap wordToBytes

end Sha256

/-! ## Hex codec (`utils::hash`) -/

/-- Lowercase hex digit for a value below 16 (the `{:02x}` format). -/
def hexDigitChar (n : Nat) : Char :=
  if n < 10 then Char.ofNat (48 + n) else Char.ofNat (87 + n)

/-- The two lowercase hex digits `{:02x}` writes for one byte. -/
def byteToHex (b : Nat) : List Char :=
  [hexDigitChar (b / 16), hexDigitChar (b % 16)]

/-- `bytes_to_hex_string`: fold each byte into two lowercase hex digits. -/
def bytes_to_hex_string (bytes : List Nat) : String :=
  String.mk (bytes.foldl (fun acc b => acc ++ byteToHex b) [])

/-- Value of one hex digit, as `u8::from_str_radix` with radix 16 reads
it: `0-9`, `a-f` or `A-F`. -/
def hexDigitVal (c : Char) : Option Nat :=
  if '0' ≤ c ∧ c ≤ '9' then some (c.toNat - 48)
  else if 'a' ≤ c ∧ c ≤ 'f' then some (c.toNat - 87)
  else if 'A' ≤ c ∧ c ≤ 'F' then some (c.toNat - 55)
  else none

/-- `u8::from_str_radix(s, 16)` on a two-character slice: an optional
leading plus sign, then hex digits. -/
def u8FromHexPair (c1 c2 : Char) : Option Nat :=
  if c1 = '+' then hexDigitVal c2
  else do
    let d1 ← hexDigitVal c1
    let d2 ← hexDigitVal c2
    some (d1 * 16 + d2)

/-- Step through the characters two at a time, as the `step_by(2)` loop
slices `hex[i..i + 2]`; a trailing lone character or a non-digit is the
source's panic, embedded as `none`. -/
def hexCharsToBytes : List Char → Option (List Nat)
  | [] => some []
  | [_] => none
  | c1 :: c2 :: rest => do
      let b ← u8FromHexPair c1 c2
      let bs ← hexCharsToBytes rest
      some (b :: bs)

/-- `hex_string_to_bytes`; `none` embeds the `expect` panic on invalid
input. -/
def hex_string_to_bytes (s : String) : Option (List Nat) :=
  hexCharsToBytes s.data

/-! ## UTF-8 bytes of a string (`str::as_bytes`) -/

/-- UTF-8 encoding of one scalar value. -/
def utf8EncodeChar (c : Char) : List Nat :=
  let n := c.toNat
  if n < 0x80 then [n]
  else if n < 0x800 then
    [0xC0 ||| (n >>> 6), 0x80 ||| (n &&& 0x3F)]
  else if n < 0x10000 then
    [0xE0 ||| (n >>> 12), 0x80 ||| ((n >>> 6) &&& 0x3F), 0x80 ||| (n &&& 0x3F)]
  else
    [0xF0 ||| (n >>> 18), 0x80 ||| ((n >>> 12) &&& 0x3F),
     0x80 ||| ((n >>> 6) &&& 0x3F), 0x80 ||| (n &&& 0x3F)]

/-- The UTF-8 bytes of a string (`as_bytes` on a Rust `String`). -/
def strBytes (s : String) : List Nat :=
  s.data.flatMap utf8EncodeChar

/-! ## Block header (`core::block_header`) -/

/-- The `BlockHeader` struct.  `timestamp` and `nonce` are `u64`,
`difficulty` is `u32`; mining fuel keeps the nonce far below 2^64, so
plain `Nat` fields are faithful. -/
structure BlockHeader where
  timestamp : Nat
  prev_hash : List Nat
  nonce : Nat
  difficulty : Nat
  deriving DecidableEq, Repr

/-- `BlockHeader::new`; the wall clock read is passed in as `timestamp`. -/
def BlockHeader.new (timestamp : Nat) (prev_hash : List Nat)
    (difficulty : Nat) : BlockHeader :=
  { timestamp := timestamp, prev_hash := prev_hash, nonce := 0,
    difficulty := difficulty }

/-! ## Block and mining (`core::block`) -/

/-- The `Block` struct. -/
structure Block where
  header : BlockHeader
  transactions : List String
  hash : List Nat
  deriving DecidableEq, Repr

/-- `Block::calculate_hash`: SHA-256 of the UTF-8 bytes of
`format!` over decimal timestamp, lowercase hex previous hash, decimal
nonce, and the transactions joined with the empty separator. -/
def Block.calculate_hash (b : Block) : List Nat :=
  let prevHashHex := bytes_to_hex_string b.header.prev_hash
  let data := Nat.repr b.header.timestamp ++ prevHashHex ++
    Nat.repr b.header.nonce ++ String.join b.transactions
  Sha256.sha256 (strBytes data)

/-- The qualification test inside `Block::mine`: the hash starts with
`difficulty / 8` zero bytes, and when `difficulty % 8 > 0` the next byte
is at most `0xFF >> (difficulty % 8)`. -/
def qualifies (hash : List Nat) (difficulty : Nat) : Bool :=
  let zeroBytes := difficulty / 8
  let remainingBits := difficulty % 8
  let lastByteMask : Nat :=
    if 0 < remainingBits then 255 >>> remainingBits else 0
  let m := (List.replicate zeroBytes 0).isPrefixOf hash
  if m && decide (0 < remainingBits) then
    decide (hash.getD zeroBytes 0 ≤ lastByteMask)
  else m

/-- The `loop` of `Block::mine`, with fuel: recompute the hash, stop
when it qualifies, otherwise increment the nonce and retry. -/
def Block.mineLoop : Nat → Block → Option Block
  | 0, _ => none
  | fuel + 1, b =>
      let hb : Block := { b with hash := b.calculate_hash }
      if qualifies hb.hash hb.header.difficulty then some hb
      else
        Block.mineLoop fuel
          { hb with header := { hb.header with nonce := hb.header.nonce + 1 } }

/-- `Block::mine`. -/
def Block.mine (b : Block) (fuel : Nat) : Option Block :=
  Block.mineLoop fuel b

/-- `Block::new`: decode the previous hash from hex (the `expect` panic
on invalid hex is `none`), build a header with nonce 0, then mine. -/
def Block.new (prev_hash_hex : String) (transactions : List String)
    (difficulty : Nat) (timestamp fuel : Nat) : Option Block :=
  match hex_string_to_bytes prev_hash_hex with
  | none => none
  | some prev_hash =>
      Block.mine
        { header := BlockHeader.new timestamp prev_hash difficulty,
          transactions := transactions, hash := [] } fuel

/-! ## Blockchain (`core::blockchain`) -/

/-- The `Blockchain` struct. -/
structure Blockchain where
  chain : List Block
  difficulty : Nat
  deriving DecidableEq, Repr

/-- The genesis previous-hash argument, `"0".repeat(64)`. -/
def genesisPrevHex : String := String.mk (List.replicate 64 '0')

/-- `Blockchain::new` with `create_genesis_block` inlined: start from an
empty chain and push the mined genesis block. -/
def Blockchain.new (difficulty timestamp fuel : Nat) : Option Blockchain :=
  (Block.new genesisPrevHex ["genesis"] difficulty timestamp fuel).map
    fun g => { chain := [g], difficulty := difficulty }

/-- `Blockchain::get_last_block`. -/
def Blockchain.get_last_block (bc : Blockchain) : Option Block :=
  bc.chain.getLast?

/-- `Blockchain::add_block`: error when there is no last block,
otherwise mine a block over the hex encoding of the last hash and push
it.  The outer `Option` is mining fuel; the `Except` is the source's
`Result<(), &str>`, with the successor chain standing for the mutated
`self`. -/
def Blockchain.add_block (bc : Blockchain) (transactions : List String)
    (timestamp fuel : Nat) : Option (Except String Blockchain) :=
  match bc.get_last_block with
  | none => some (Except.error "Blockchain is empty. Cannot add block.")
  | some last =>
      (Block.new (bytes_to_hex_string last.hash) transactions bc.difficulty
          timestamp fuel).map
        fun b => Except.ok { bc with chain := bc.chain ++ [b] }

/-- States reachable from `Blockchain::new` by successful `add_block`
calls, at any timestamps and fuels. -/
inductive Reachable : Blockchain → Prop
  | new {d ts fuel : Nat} {bc : Blockchain} :
      Blockchain.new d ts fuel = some bc → Reachable bc
  | add {bc bc' : Blockchain} {txs : List String} {ts fuel : Nat} :
      Reachable bc → bc.add_block txs ts fuel = some (Except.ok bc') →
      Reachable bc'

/-! ## Iteration (`BlockchainIterator`, `iter`, `iter_reverse`) -/

/-- The `BlockchainIterator` struct. -/
structure BlockchainIterator where
  blockchain : Blockchain
  current_index : Nat

/-- `BlockchainIterator::next` (`Iterator::next` returning the item and
the advanced iterator). -/
def BlockchainIterator.next (it : BlockchainIterator) :
    Option (Block × BlockchainIterator) :=
  if h : it.current_index < it.blockchain.chain.length then
    some (it.blockchain.chain.get ⟨it.current_index, h⟩,
      { it with current_index := it.current_index + 1 })
  else none

/-- Drain an iterator into a list (fuelled; the traversal is finite). -/
def BlockchainIterator.collect : Nat → BlockchainIterator → List Block
  | 0, _ => []
  | fuel + 1, it =>
      match it.next with
      | none => []
      | some (b, it') => b :: BlockchainIterator.collect fuel it'

/-- `Blockchain::iter` (`into_iter`): a fresh cursor at index 0. -/
def Blockchain.iter (bc : Blockchain) : BlockchainIterator :=
  { blockchain := bc, current_index := 0 }

/-- The whole forward traversal of `iter()`. -/
def Blockchain.iterateList (bc : Blockchain) : List Block :=
  BlockchainIterator.collect bc.chain.length bc.iter

/-- The whole traversal of `iter_reverse()` (`chain.iter().rev()`). -/
def Blockchain.iterReverseList (bc : Blockchain) : List Block :=
  bc.chain.reverse

/-! ## Persistence manager (`core::blockchain_manager`)

The `sled` store and `bincode` are external crates: the record read, the
serializer, the insert and the flush enter the model as explicit
outcomes, and only the control flow of `BlockchainManager` itself is
embedded. -/

/-- Errors of the embedded store (`sled::Error`); `unsupported` carries
the message `Error::Unsupported` is built with. -/
inductive SledError where
  | unsupported (msg : String)
  | other
  deriving DecidableEq, Repr

/-- Chain selection in `BlockchainManager::new` after `open` succeeded:
`dbGet` is the `db.get("blockchain")` outcome, `deser` the bincode
deserializer.  A present record that deserializes is used as is; an
absent record or a failed deserialization falls back to
`Blockchain::new(4)`.  The inner `Option` is the fallback's mining
fuel. -/
def managerNewChain (dbGet : Except SledError (Option (List Nat)))
    (deser : List Nat → Option Blockchain) (timestamp fuel : Nat) :
    Except SledError (Option Blockchain) :=
  match dbGet with
  | Except.error e => Except.error e
  | Except.ok stored =>
      Except.ok
        (match stored with
         | some data =>
             match deser data with
             | some chain => some chain
             | none => Blockchain.new 4 timestamp fuel
         | none => Blockchain.new 4 timestamp fuel)

/-- `BlockchainManager::save`: `serRes` is the bincode `serialize`
outcome, `insertRes` the `db.insert` outcome for the written bytes, and
`flushRes` the `db.flush` outcome — whose result the source drops with
`let _ =`. -/
def managerSave (serRes : Option (List Nat))
    (insertRes : List Nat → Except SledError (Option (List Nat)))
    (flushRes : Except SledError Nat) : Except SledError Unit :=
  match serRes with
  | none => Except.error (SledError.unsupported "Serialization failed")
  | some data =>
      match insertRes data with
      | Except.error e => Except.error e
      | Except.ok _ =>
          let _ := flushRes
          Except.ok ()

/-! ## Derived predicates, spec-side definitions, and concrete values -/

/-- Every entry of a block's stored hash is a byte. -/
def hashBytesOk (b : Block) : Prop := ∀ x ∈ b.hash, x < 256

/-- Adjacent blocks are linked: each block's previous hash is the hash
of the block before it. -/
def linked (l : List Block) : Prop :=
  ∀ (i : Nat) (b b' : Block), l[i]? = some b → l[i + 1]? = some b' →
    b'.header.prev_hash = b.hash

/-- The hash pre-image exactly as the spec words it: the decimal
rendering of the timestamp, the lowercase hex rendering of the previous
hash, the decimal rendering of the nonce, and the transaction strings
concatenated with no separator. -/
def specHashPreimage (timestamp : Nat) (prevHash : List Nat) (nonce : Nat)
    (txs : List String) : String :=
  Nat.repr timestamp ++ bytes_to_hex_string prevHash ++ Nat.repr nonce ++
    txs.foldl (fun acc t => acc ++ t) ""

/-- A concrete mined block: difficulty 0, empty transactions, previous
hash `0x00`, timestamp 0, one unit of fuel. -/
def blkW : Block := (Block.new "00" [] 0 0 1).get (by decide)

/-- A concrete reachable chain: genesis at difficulty 0, timestamp 0. -/
def bc1W : Blockchain := (Blockchain.new 0 0 1).get (by decide)

/-- The chain `bc1W` extended by one mined block. -/
def bc2W : Blockchain :=
  match bc1W.add_block ["tx"] 0 1 with
  | some (Except.ok c) => c
  | _ => bc1W

/-- The first block of `bc2W`. -/
def genW : Block := bc2W.chain.getD 0 blkW

/-- The second block of `bc2W`. -/
def nbW : Block := bc2W.chain.getD 1 blkW

/-- A concrete chain mined at the default difficulty 4 (timestamp 0:
the search ends at nonce 27, within fuel 40). -/
def bc4W : Blockchain := (Blockchain.new 4 0 40).get (by decide)

/-! ## Hex codec lemmas -/

theorem foldl_hexAcc (l : List Nat) :
    ∀ acc : List Char,
      l.foldl (fun acc b => acc ++ byteToHex b) acc = acc ++ l.flatMap byteToHex := by
  induction l with
  | nil => intro acc; simp
  | cons b t ih => intro acc; simp [List.foldl_cons, ih, List.flatMap_cons]

/-- The encoder emits two lowercase hex digits per byte, in order. -/
theorem bytes_to_hex_string_data (l : List Nat) :
    (bytes_to_hex_string l).data = l.flatMap byteToHex := by
  show (String.mk _).data = _
  rw [foldl_hexAcc]
  simp

theorem hexDigitVal_hexDigitChar : ∀ d < 16, hexDigitVal (hexDigitChar d) = some d := by
  decide

theorem hexDigitChar_ne_plus : ∀ d < 16, hexDigitChar d ≠ '+' := by
  decide

theorem u8FromHexPair_byteToHex {b : Nat} (hb : b < 256) :
    u8FromHexPair (hexDigitChar (b / 16)) (hexDigitChar (b % 16)) = some b := by
  have h1 : b / 16 < 16 := Nat.div_lt_of_lt_mul hb
  have h2 : b % 16 < 16 := Nat.mod_lt _ (by norm_num)
  unfold u8FromHexPair
  rw [if_neg (hexDigitChar_ne_plus _ h1), hexDigitVal_hexDigitChar _ h1,
    hexDigitVal_hexDigitChar _ h2]
  simp only [Option.bind_eq_bind, Option.some_bind, Option.some.injEq]
  omega

theorem hexCharsToBytes_flatMap (l : List Nat) (hb : ∀ x ∈ l, x < 256) :
    hexCharsToBytes (l.flatMap byteToHex) = some l := by
  induction l with
  | nil => rfl
  | cons b t ih =>
      have hbb : b < 256 := hb b (List.mem_cons_self ..)
      rw [List.flatMap_cons]
      show hexCharsToBytes
        (hexDigitChar (b / 16) :: hexDigitChar (b % 16) :: t.flatMap byteToHex) = _
      rw [hexCharsToBytes, u8FromHexPair_byteToHex hbb,
        ih fun x hx => hb x (List.mem_cons_of_mem _ hx)]
      rfl

theorem flatMap_byteToHex_length (l : List Nat) :
    (l.flatMap byteToHex).length = 2 * l.length := by
  induction l with
  | nil => rfl
  | cons b t ih => simp [List.flatMap_cons, byteToHex, ih]; ring

theorem byteToHex_lower : ∀ d < 256, ∀ c ∈ byteToHex d,
    ('0' ≤ c ∧ c ≤ '9') ∨ ('a' ≤ c ∧ c ≤ 'f') := by
  intro d hd c hc
  have h1 : d / 16 < 16 := Nat.div_lt_of_lt_mul hd
  have h2 : d % 16 < 16 := Nat.mod_lt _ (by norm_num)
  have key : ∀ e < 16, ('0' ≤ hexDigitChar e ∧ hexDigitChar e ≤ '9') ∨
      ('a' ≤ hexDigitChar e ∧ hexDigitChar e ≤ 'f') := by decide
  simp only [byteToHex, List.mem_cons, List.not_mem_nil, or_false] at hc
  rcases hc with h | h
  · exact h ▸ key _ h1
  · exact h ▸ key _ h2

/-- Decoding inverts encoding on byte sequences. -/
theorem hex_roundtrip_aux (l : List Nat) (hb : ∀ x ∈ l, x < 256) :
    hex_string_to_bytes (bytes_to_hex_string l) = some l := by
  show hexCharsToBytes (bytes_to_hex_string l).data = some l
  rw [bytes_to_hex_string_data]
  exact hexCharsToBytes_flatMap l hb

/-- Claim C6: decoding inverts encoding; the encoding is exactly two
lowercase hex digits per input byte, in order, of total length twice the
input length. -/
theorem claim6_hex_roundtrip (b : List Nat) (hb : ∀ x ∈ b, x < 256) :
    hex_string_to_bytes (bytes_to_hex_string b) = some b ∧
    (bytes_to_hex_string b).data = b.flatMap byteToHex ∧
    (bytes_to_hex_string b).length = 2 * b.length ∧
    ∀ c ∈ (bytes_to_hex_string b).data,
      ('0' ≤ c ∧ c ≤ '9') ∨ ('a' ≤ c ∧ c ≤ 'f') := by
  have hdata := bytes_to_hex_string_data b
  refine ⟨hex_roundtrip_aux b hb, hdata, ?_, ?_⟩
  · show (bytes_to_hex_string b).data.length = 2 * b.length
    rw [hdata]
    exact flatMap_byteToHex_length b
  · intro c hc
    rw [hdata] at hc
    obtain ⟨d, hd, hcd⟩ := List.mem_flatMap.mp hc
    exact byteToHex_lower d (hb d hd) c hcd

/-- Witness for C6 at the byte sequence `[18, 171]`. -/
theorem claim6_witness :
    hex_string_to_bytes (bytes_to_hex_string [18, 171]) = some [18, 171] ∧
    (bytes_to_hex_string [18, 171]).length = 2 * ([18, 171] : List Nat).length :=
  ⟨(claim6_hex_roundtrip [18, 171] (by decide)).1,
   (claim6_hex_roundtrip [18, 171] (by decide)).2.2.1⟩

/-! ## SHA-256 output shape -/

theorem Sha256.step_length (st : List Nat) (k w : Nat) :
    (Sha256.step st k w).length = st.length := by
  unfold Sha256.step
  split <;> simp

theorem Sha256.foldl_step_length (l : List (Nat × Nat)) :
    ∀ st : List Nat,
      (l.foldl (fun st kw => Sha256.step st kw.1 kw.2) st).length = st.length := by
  induction l with
  | nil => intro st; rfl
  | cons p t ih => intro st; rw [List.foldl_cons, ih, Sha256.step_length]

theorem Sha256.compress_length (h0 blk : List Nat) :
    (Sha256.compress h0 blk).length = h0.length := by
  simp only [Sha256.compress, List.length_map, List.length_zip,
    Sha256.foldl_step_length, Nat.min_self]

theorem Sha256.foldl_compress_length (blocks : List (List Nat)) :
    ∀ h0 : List Nat, (blocks.foldl Sha256.compress h0).length = h0.length := by
  induction blocks with
  | nil => intro h0; rfl
  | cons blk t ih => intro h0; rw [List.foldl_cons, ih, Sha256.compress_length]

theorem Sha256.flatMap_wordToBytes_length (l : List Nat) :
    (l.flatMap Sha256.wordToBytes).length = 4 * l.length := by
  induction l with
  | nil => rfl
  | cons w t ih => simp [List.flatMap_cons, Sha256.wordToBytes, ih]; ring

/-- A SHA-256 digest has exactly 32 bytes. -/
theorem Sha256.sha256_length (msg : List Nat) : (Sha256.sha256 msg).length = 32 := by
  simp only [Sha256.sha256]
  rw [Sha256.flatMap_wordToBytes_length, Sha256.foldl_compress_length]
  rfl

/-- Every entry of a SHA-256 digest is a byte. -/
theorem Sha256.sha256_lt (msg : List Nat) : ∀ x ∈ Sha256.sha256 msg, x < 256 := by
  simp only [Sha256.sha256]
  intro x hx
  obtain ⟨w, _, hxw⟩ := List.mem_flatMap.mp hx
  simp only [Sha256.wordToBytes, List.mem_cons, List.not_mem_nil, or_false] at hxw
  rcases hxw with h | h | h | h <;> exact h ▸ Nat.mod_lt _ (by norm_num)

/-! ## Mining lemmas -/

theorem Block.calculate_hash_length (b : Block) : b.calculate_hash.length = 32 :=
  Sha256.sha256_length _

theorem Block.calculate_hash_lt (b : Block) : ∀ x ∈ b.calculate_hash, x < 256 :=
  Sha256.sha256_lt _

/-- What the mining loop guarantees when it returns: only the nonce and
the hash changed, the final hash is the hash of the final state, and it
qualifies. -/
theorem Block.mineLoop_spec :
    ∀ (fuel : Nat) (b b' : Block), Block.mineLoop fuel b = some b' →
      b'.header.timestamp = b.header.timestamp ∧
      b'.header.prev_hash = b.header.prev_hash ∧
      b'.header.difficulty = b.header.difficulty ∧
      b'.transactions = b.transactions ∧
      b'.hash = b'.calculate_hash ∧
      qualifies b'.hash b'.header.difficulty = true := by
  intro fuel
  induction fuel with
  | zero => intro b b' h; simp [Block.mineLoop] at h
  | succ n ih =>
      intro b b' h
      simp only [Block.mineLoop] at h
      split at h
      · cases h
        refine ⟨rfl, rfl, rfl, rfl, rfl, ?_⟩
        assumption
      · obtain ⟨h1, h2, h3, h4, h5, h6⟩ := ih _ _ h
        exact ⟨h1, h2, h3, h4, h5, h6⟩

/-- What `Block::new` guarantees when it returns. -/
theorem Block.new_spec {phx : String} {txs : List String} {d ts fuel : Nat}
    {b : Block} (h : Block.new phx txs d ts fuel = some b) :
    hex_string_to_bytes phx = some b.header.prev_hash ∧
    b.header.timestamp = ts ∧
    b.header.difficulty = d ∧
    b.transactions = txs ∧
    b.hash = b.calculate_hash ∧
    qualifies b.hash d = true := by
  unfold Block.new at h
  cases hdec : hex_string_to_bytes phx with
  | none => rw [hdec] at h; cases h
  | some prev =>
      rw [hdec] at h
      obtain ⟨h1, h2, h3, h4, h5, h6⟩ := Block.mineLoop_spec _ _ _ h
      have hts : b.header.timestamp = ts := h1
      have hprev : b.header.prev_hash = prev := h2
      have hdiff : b.header.difficulty = d := h3
      have htxs : b.transactions = txs := h4
      rw [hdiff] at h6
      refine ⟨?_, hts, hdiff, htxs, h5, h6⟩
      rw [hprev]

theorem qualifies_take {h : List Nat} {d : Nat} (hq : qualifies h d = true) :
    h.take (d / 8) = List.replicate (d / 8) 0 := by
  simp only [qualifies] at hq
  by_cases hm : (List.replicate (d / 8) 0).isPrefixOf h = true
  · have hpre := List.isPrefixOf_iff_prefix.mp hm
    have ht := List.prefix_iff_eq_take.mp hpre
    rw [List.length_replicate] at ht
    exact ht.symm
  · rw [Bool.not_eq_true] at hm
    rw [hm] at hq
    simp at hq

theorem qualifies_byte {h : List Nat} {d : Nat} (hq : qualifies h d = true)
    (hr : 0 < d % 8) : h.getD (d / 8) 0 ≤ 255 >>> (d % 8) := by
  simp only [qualifies] at hq
  by_cases hm : (List.replicate (d / 8) 0).isPrefixOf h = true
  · rw [hm] at hq
    simp [hr] at hq
    simpa [List.getD_eq_getElem?_getD] using hq
  · rw [Bool.not_eq_true] at hm
    rw [hm] at hq
    simp at hq

/-- Claim C1: a block returned by `Block::new` at difficulty `d < 256`
has a 32-byte hash whose first `d / 8` bytes are zero and, when
`d % 8 > 0`, whose byte at index `d / 8` is at most `0xFF >> (d % 8)`. -/
theorem claim1_mine_meets_difficulty (phx : String) (txs : List String)
    (d ts fuel : Nat) (b : Block) (_hd : d < 256)
    (h : Block.new phx txs d ts fuel = some b) :
    b.hash.length = 32 ∧
    b.hash.take (d / 8) = List.replicate (d / 8) 0 ∧
    (0 < d % 8 → b.hash.getD (d / 8) 0 ≤ 255 >>> (d % 8)) := by
  obtain ⟨_, _, _, _, hhash, hqual⟩ := Block.new_spec h
  refine ⟨?_, qualifies_take hqual, fun hr => qualifies_byte hqual hr⟩
  rw [hhash]
  exact Block.calculate_hash_length b

/-- Witness for C1 at difficulty 0. -/
theorem claim1_witness :
    blkW.hash.length = 32 ∧
    blkW.hash.take (0 / 8) = List.replicate (0 / 8) 0 ∧
    (0 < 0 % 8 → blkW.hash.getD (0 / 8) 0 ≤ 255 >>> (0 % 8)) :=
  claim1_mine_meets_difficulty "00" [] 0 0 1 blkW (by norm_num)
    (Option.some_get (by decide)).symm

/-- Claim C4: the hash of every block `Block::new` returns is SHA-256 of
the byte encoding of the spec's concatenation. -/
theorem claim4_hash_preimage (phx : String) (txs : List String)
    (d ts fuel : Nat) (b : Block) (h : Block.new phx txs d ts fuel = some b) :
    b.hash = Sha256.sha256 (strBytes (specHashPreimage b.header.timestamp
      b.header.prev_hash b.header.nonce b.transactions)) := by
  obtain ⟨_, _, _, _, hhash, _⟩ := Block.new_spec h
  rw [hhash]
  rfl

/-- Witness for C4 on the concrete block `blkW`. -/
theorem claim4_witness :
    blkW.hash = Sha256.sha256 (strBytes (specHashPreimage blkW.header.timestamp
      blkW.header.prev_hash blkW.header.nonce blkW.transactions)) :=
  claim4_hash_preimage "00" [] 0 0 1 blkW (Option.some_get (by decide)).symm

/-! ## Chain invariants -/

theorem Blockchain.new_genesis_case {d ts fuel : Nat} {bc : Blockchain}
    (h : Blockchain.new d ts fuel = some bc) :
    ∃ g, Block.new genesisPrevHex ["genesis"] d ts fuel = some g ∧
      bc = { chain := [g], difficulty := d } := by
  unfold Blockchain.new at h
  cases hg : Block.new genesisPrevHex ["genesis"] d ts fuel with
  | none => rw [hg] at h; cases h
  | some g =>
      rw [hg, Option.map_some'] at h
      exact ⟨g, rfl, (Option.some.inj h).symm⟩

theorem Blockchain.add_block_ok {bc : Blockchain} {txs : List String}
    {ts fuel : Nat} {bc' : Blockchain}
    (h : bc.add_block txs ts fuel = some (Except.ok bc')) :
    ∃ last b, bc.chain.getLast? = some last ∧
      Block.new (bytes_to_hex_string last.hash) txs bc.difficulty ts fuel = some b ∧
      bc' = { bc with chain := bc.chain ++ [b] } := by
  cases hl : bc.chain.getLast? with
  | none =>
      simp only [Blockchain.add_block, Blockchain.get_last_block, hl] at h
      exact absurd h (by simp)
  | some last =>
      simp only [Blockchain.add_block, Blockchain.get_last_block, hl] at h
      cases hb : Block.new (bytes_to_hex_string last.hash) txs bc.difficulty ts fuel with
      | none => rw [hb, Option.map_none'] at h; cases h
      | some b =>
          rw [hb, Option.map_some'] at h
          exact ⟨last, b, rfl, hb, (Except.ok.inj (Option.some.inj h)).symm⟩

/-- The master invariant of reachable chains: a genesis head with
all-zero previous hash and the sentinel transaction, adjacent linkage,
and every block carrying byte-valued hashes and the chain-wide
difficulty. -/
theorem reachable_invariant {bc : Blockchain} (h : Reachable bc) :
    (∃ g rest, bc.chain = g :: rest ∧
      g.header.prev_hash = List.replicate 32 0 ∧
      g.transactions = ["genesis"]) ∧
    linked bc.chain ∧
    (∀ b ∈ bc.chain, hashBytesOk b ∧ b.header.difficulty = bc.difficulty) := by
  induction h with
  | @new d ts fuel bc hnew =>
      obtain ⟨g, hg, hbc⟩ := Blockchain.new_genesis_case hnew
      subst hbc
      obtain ⟨hdec, _, hdiff, htxs, hhash, _⟩ := Block.new_spec hg
      have hgen : hex_string_to_bytes genesisPrevHex = some (List.replicate 32 0) := by
        decide
      refine ⟨⟨g, [], rfl, (Option.some.inj (hgen.symm.trans hdec)).symm, htxs⟩, ?_, ?_⟩
      · intro i b b' _ hb'
        rw [List.getElem?_eq_none (by simp)] at hb'
        cases hb'
      · intro b hb
        rw [show ({ chain := [g], difficulty := d } : Blockchain).chain = [g] from rfl,
          List.mem_singleton] at hb
        subst hb
        refine ⟨?_, hdiff⟩
        intro x hx
        rw [hhash] at hx
        exact Block.calculate_hash_lt _ x hx
  | @add bc bc' txs ts fuel _ hok ih =>
      obtain ⟨⟨g, rest, hchain, hgp, hgt⟩, hlink, hall⟩ := ih
      obtain ⟨last, nb, hlast, hnew, hbc'⟩ := Blockchain.add_block_ok hok
      subst hbc'
      obtain ⟨hdec, _, hdiff, _, hhash, _⟩ := Block.new_spec hnew
      have hlastmem : last ∈ bc.chain := by
        rw [List.getLast?_eq_getElem?] at hlast
        exact List.getElem?_mem hlast
      have hround : hex_string_to_bytes (bytes_to_hex_string last.hash) =
          some last.hash :=
        hex_roundtrip_aux last.hash (hall last hlastmem).1
      have hprevlast : nb.header.prev_hash = last.hash := by
        rw [hround] at hdec
        exact (Option.some.inj hdec).symm
      refine ⟨⟨g, rest ++ [nb], by rw [show ({ bc with chain := bc.chain ++ [nb] } :
        Blockchain).chain = bc.chain ++ [nb] from rfl, hchain]; simp, hgp, hgt⟩, ?_, ?_⟩
      · intro i b b' hb hb'
        by_cases hi : i + 1 < bc.chain.length
        · rw [List.getElem?_append, if_pos (by omega)] at hb
          rw [List.getElem?_append, if_pos hi] at hb'
          exact hlink i b b' hb hb'
        · by_cases hieq : i + 1 = bc.chain.length
          · rw [List.getElem?_append, if_pos (by omega)] at hb
            rw [List.getElem?_append, if_neg (by omega),
              show i + 1 - bc.chain.length = 0 by omega] at hb'
            simp only [List.getElem?_cons_zero] at hb'
            rw [List.getLast?_eq_getElem?,
              show bc.chain.length - 1 = i by omega] at hlast
            have hbl : b = last := Option.some.inj (hb.symm.trans hlast)
            have hb'nb : b' = nb := (Option.some.inj hb').symm
            subst hbl
            subst hb'nb
            exact hprevlast
          · rw [List.getElem?_eq_none (by simp; omega)] at hb'
            cases hb'
      · intro b hb
        rw [List.mem_append] at hb
        rcases hb with hb | hb
        · exact hall b hb
        · rw [List.mem_singleton] at hb
          subst hb
          refine ⟨?_, hdiff⟩
          intro x hx
          rw [hhash] at hx
          exact Block.calculate_hash_lt _ x hx

/-- Claim C2: in every reachable chain, each block's previous hash is
the hash of its predecessor — the linkage survives the hex encode in
`add_block` and the decode in `Block::new`. -/
theorem claim2_chain_linkage {bc : Blockchain} (h : Reachable bc) :
    ∀ (i : Nat) (b b' : Block), bc.chain[i]? = some b →
      bc.chain[i + 1]? = some b' → b'.header.prev_hash = b.hash :=
  (reachable_invariant h).2.1

/-- Claim C3: every reachable chain is non-empty, and its first block
has 32 zero bytes as previous hash and the single transaction
`"genesis"`. -/
theorem claim3_genesis_invariant {bc : Blockchain} (h : Reachable bc) :
    bc.chain ≠ [] ∧ ∀ g, bc.chain[0]? = some g →
      g.header.prev_hash = List.replicate 32 0 ∧ g.transactions = ["genesis"] := by
  obtain ⟨⟨g, rest, hchain, hgp, hgt⟩, _, _⟩ := reachable_invariant h
  refine ⟨by rw [hchain]; simp, ?_⟩
  intro g' hg'
  rw [hchain, List.getElem?_cons_zero] at hg'
  rw [← Option.some.inj hg']
  exact ⟨hgp, hgt⟩

/-- Claim C10: every block of a reachable chain carries the chain-wide
difficulty. -/
theorem claim10_uniform_difficulty {bc : Blockchain} (h : Reachable bc) :
    ∀ b ∈ bc.chain, b.header.difficulty = bc.difficulty :=
  fun b hb => ((reachable_invariant h).2.2 b hb).2

/-- Claim C5: `add_block` answers the empty-chain error exactly when the
chain has no last block; a success appends exactly one block, mined over
the hex encoding of the previous last block's hash, leaving the earlier
blocks and the difficulty unchanged. -/
theorem claim5_add_block_result (bc : Blockchain) (txs : List String)
    (ts fuel : Nat) :
    ((∃ e, bc.add_block txs ts fuel = some (Except.error e)) ↔ bc.chain = []) ∧
    (bc.chain = [] →
      bc.add_block txs ts fuel =
        some (Except.error "Blockchain is empty. Cannot add block.")) ∧
    (∀ bc', bc.add_block txs ts fuel = some (Except.ok bc') →
      ∃ last b, bc.chain.getLast? = some last ∧
        Block.new (bytes_to_hex_string last.hash) txs bc.difficulty ts fuel =
          some b ∧
        bc'.chain = bc.chain ++ [b] ∧ bc'.difficulty = bc.difficulty) := by
  have herr : bc.chain = [] →
      bc.add_block txs ts fuel =
        some (Except.error "Blockchain is empty. Cannot add block.") := by
    intro hempty
    simp only [Blockchain.add_block, Blockchain.get_last_block, hempty,
      List.getLast?_nil]
  refine ⟨⟨?_, fun hempty => ⟨_, herr hempty⟩⟩, herr, ?_⟩
  · rintro ⟨e, he⟩
    by_contra hne
    cases hl : bc.chain.getLast? with
    | none => exact hne (List.getLast?_eq_none_iff.mp hl)
    | some last =>
        simp only [Blockchain.add_block, Blockchain.get_last_block, hl] at he
        cases hb : Block.new (bytes_to_hex_string last.hash) txs bc.difficulty
            ts fuel with
        | none => rw [hb, Option.map_none'] at he; cases he
        | some b => rw [hb, Option.map_some'] at he; simp at he
  · intro bc' hok
    obtain ⟨last, b, hl, hb, heq⟩ := Blockchain.add_block_ok hok
    subst heq
    exact ⟨last, b, hl, hb, rfl, rfl⟩

theorem bc1W_reachable : Reachable bc1W :=
  Reachable.new (Option.some_get (by decide)).symm

theorem bc2W_step : bc1W.add_block ["tx"] 0 1 = some (Except.ok bc2W) := by rfl

theorem bc2W_reachable : Reachable bc2W :=
  Reachable.add bc1W_reachable bc2W_step

/-- Witness for C2 at the two adjacent blocks of the concrete chain. -/
theorem claim2_witness : nbW.header.prev_hash = genW.hash := by
  have h0 : bc2W.chain[0]? = some genW := by rfl
  have h1 : bc2W.chain[0 + 1]? = some nbW := by rfl
  exact claim2_chain_linkage bc2W_reachable 0 genW nbW h0 h1

/-- Witness for C3 on the concrete genesis chain. -/
theorem claim3_witness :
    bc1W.chain ≠ [] ∧
    (bc1W.chain.getD 0 blkW).header.prev_hash = List.replicate 32 0 ∧
    (bc1W.chain.getD 0 blkW).transactions = ["genesis"] :=
  ⟨(claim3_genesis_invariant bc1W_reachable).1,
   (claim3_genesis_invariant bc1W_reachable).2 (bc1W.chain.getD 0 blkW) (by rfl)⟩

/-- Witness for C5 on the unreachable empty chain, where the defensive
guard answers the error. -/
theorem claim5_witness :
    Blockchain.add_block { chain := [], difficulty := 0 } ["a"] 0 1 =
      some (Except.error "Blockchain is empty. Cannot add block.") :=
  (claim5_add_block_result { chain := [], difficulty := 0 } ["a"] 0 1).2.1 rfl

/-- Witness for C10 on the first block of the concrete two-block chain. -/
theorem claim10_witness : genW.header.difficulty = bc2W.difficulty := by
  have h0 : bc2W.chain[0]? = some genW := by rfl
  exact claim10_uniform_difficulty bc2W_reachable genW (List.getElem?_mem h0)

/-! ## Iteration: C9 -/

theorem BlockchainIterator.collect_eq (fuel : Nat) :
    ∀ (bc : Blockchain) (i : Nat),
      BlockchainIterator.collect fuel { blockchain := bc, current_index := i } =
        (bc.chain.drop i).take fuel := by
  induction fuel with
  | zero => intro bc i; rfl
  | succ n ih =>
      intro bc i
      rw [BlockchainIterator.collect]
      by_cases hi : i < bc.chain.length
      · rw [show ({ blockchain := bc, current_index := i } :
            BlockchainIterator).next =
            some (bc.chain.get ⟨i, hi⟩,
              { blockchain := bc, current_index := i + 1 }) from
            dif_pos hi]
        rw [List.drop_eq_getElem_cons hi, List.take_succ_cons]
        show bc.chain.get ⟨i, hi⟩ ::
          BlockchainIterator.collect n { blockchain := bc, current_index := i + 1 } = _
        rw [ih bc (i + 1)]
        rfl
      · rw [show ({ blockchain := bc, current_index := i } :
            BlockchainIterator).next = none from dif_neg hi]
        rw [List.drop_eq_nil_of_le (by omega)]
        rfl

/-- Claim C9: the forward traversal yields the chain oldest first, and
its reversal is exactly the reverse traversal. -/
theorem claim9_iterate_reverse (bc : Blockchain) :
    bc.iterateList = bc.chain ∧
    bc.iterateList.reverse = bc.iterReverseList := by
  have h : bc.iterateList = bc.chain := by
    show BlockchainIterator.collect bc.chain.length
      { blockchain := bc, current_index := 0 } = bc.chain
    rw [BlockchainIterator.collect_eq]
    simp
  exact ⟨h, by rw [h]; rfl⟩

/-! ## Persistence: C7 and C8 -/

theorem Blockchain.new_shape {d ts fuel : Nat} {bc : Blockchain}
    (h : Blockchain.new d ts fuel = some bc) :
    bc.chain.length = 1 ∧ bc.difficulty = d := by
  obtain ⟨g, _, hbc⟩ := Blockchain.new_genesis_case h
  subst hbc
  exact ⟨rfl, rfl⟩

/-- Claim C7: after a successful open, an absent record or a failed
deserialization yields a freshly created chain of length 1 at the fixed
default difficulty 4, without an error. -/
theorem claim7_open_fallback (deser : List Nat → Option Blockchain)
    (ts fuel : Nat) (bc : Blockchain)
    (hmine : Blockchain.new 4 ts fuel = some bc) :
    managerNewChain (Except.ok none) deser ts fuel = Except.ok (some bc) ∧
    (∀ data, deser data = none →
      managerNewChain (Except.ok (some data)) deser ts fuel =
        Except.ok (some bc)) ∧
    bc.chain.length = 1 ∧ bc.difficulty = 4 := by
  obtain ⟨h1, h2⟩ := Blockchain.new_shape hmine
  refine ⟨?_, ?_, h1, h2⟩
  · simp only [managerNewChain, hmine]
  · intro data hd
    simp only [managerNewChain, hd, hmine]

theorem bc4W_eq : Blockchain.new 4 0 40 = some bc4W :=
  (Option.some_get (by decide)).symm

/-- Witness for C7: both an absent record and a failing deserializer
produce the concrete difficulty-4 genesis chain. -/
theorem claim7_witness :
    managerNewChain (Except.ok none) (fun _ => none) 0 40 =
      Except.ok (some bc4W) ∧
    bc4W.chain.length = 1 ∧ bc4W.difficulty = 4 :=
  ⟨(claim7_open_fallback (fun _ => none) 0 40 bc4W bc4W_eq).1,
   (claim7_open_fallback (fun _ => none) 0 40 bc4W bc4W_eq).2.2⟩

/-- Counterexample to C8 as stated: serialization and the write succeed,
the flush fails, and `save` still returns success — the source drops the
flush result with `let _ = self.db.flush()`. -/
theorem claim8_counterexample :
    ¬ (∀ (serRes : Option (List Nat))
        (insertRes : List Nat → Except SledError (Option (List Nat)))
        (flushRes : Except SledError Nat),
        managerSave serRes insertRes flushRes = Except.ok () →
          ∃ n, flushRes = Except.ok n) := by
  intro hcl
  obtain ⟨n, hn⟩ := hcl (some []) (fun _ => Except.ok none)
    (Except.error SledError.other) rfl
  cases hn

/-- Amended C8: `save` serializes the chain and writes it under the
fixed record, returning `SerializeError` when serialization fails and
the store error when the write fails; the flush outcome is ignored, so
`save` returns success exactly when serialization and the write succeed,
whatever the flush did. -/
theorem claim8_save_errors (serRes : Option (List Nat))
    (insertRes : List Nat → Except SledError (Option (List Nat)))
    (flushRes : Except SledError Nat) :
    (serRes = none →
      managerSave serRes insertRes flushRes =
        Except.error (SledError.unsupported "Serialization failed")) ∧
    (∀ data, serRes = some data →
      (∀ e, insertRes data = Except.error e →
        managerSave serRes insertRes flushRes = Except.error e) ∧
      (∀ v, insertRes data = Except.ok v →
        managerSave serRes insertRes flushRes = Except.ok ())) := by
  constructor
  · intro h
    subst h
    rfl
  · intro data h
    subst h
    constructor
    · intro e he
      simp only [managerSave, he]
    · intro v hv
      simp only [managerSave, hv]

/-- Witness for the amended C8 at the very input refuting the original
claim: the write succeeds, the flush fails, and `save` returns success. -/
theorem claim8_witness :
    managerSave (some []) (fun _ => Except.ok none)
      (Except.error SledError.other) = Except.ok () :=
  ((claim8_save_errors (some []) (fun _ => Except.ok none)
    (Except.error SledError.other)).2 [] rfl).2 none rfl

end RustChain
